import Mathlib

/-!
# Verification of the NRB annual-report RAG ingestion/query pipeline

Shallow embedding of `populate_database.py` (chunk identifier assignment,
idempotent batched upsert into the Chroma store, reset-then-ingest driver)
and of the query pipeline's provenance contract, together with proofs of
the specification's claims about them.

Python strings are modelled as Lean `String`; Python metadata dictionaries
(string keys, string-or-int values) as association lists; the Chroma store
as the ordered list of identifiers it holds (the only observable the spec
reasons about).  Decimal rendering of an integer (Python `f"{n}"`) is given
by an explicit fuel-based function so every definition is executable.
-/

set_option autoImplicit false

namespace RagPipeline

/-! ## Decimal rendering (embedding of Python `str` on integers) -/

/-- One decimal digit `0..9` as a character. -/
def digitChar (n : Nat) : Char :=
  if n = 0 then '0' else if n = 1 then '1' else if n = 2 then '2'
  else if n = 3 then '3' else if n = 4 then '4' else if n = 5 then '5'
  else if n = 6 then '6' else if n = 7 then '7' else if n = 8 then '8'
  else if n = 9 then '9' else '*'

/-- Decimal digits of `n`, most significant first; structural recursion on
`fuel` so the kernel can evaluate it. -/
def natDecAux : Nat → Nat → List Char
  | 0, _ => []
  | fuel + 1, n =>
    if n < 10 then [digitChar n]
    else natDecAux fuel (n / 10) ++ [digitChar (n % 10)]

/-- Decimal rendering of a natural number (Python `str(n)` for `n ≥ 0`). -/
def natDecimal (n : Nat) : String :=
  ⟨natDecAux (n + 1) n⟩

/-- Numeric value of a digit list, most significant first. -/
def decVal (l : List Char) : Nat :=
  l.foldl (fun a c => 10 * a + (c.toNat - 48)) 0

/-! ## Data model: chunks and their metadata

A `Document` (as produced by the PDF loader) carries text and metadata.
A chunk produced by the splitter is modelled in the same way: text plus a
metadata dictionary with string keys and string/int values (the loader
stores `source : str` and `page : int`; `calculate_chunk_ids` adds
`id : str`).  Python `dict.get` on a missing key yields `None`, which an
f-string renders as `"None"`. -/

/-- A Python metadata value: a string or an integer. -/
inductive MetaVal where
  | str (s : String)
  | int (n : Int)
deriving DecidableEq, Repr

/-- Python `str()` of an optional metadata value, as used inside f-strings
(`None` prints as `"None"`). -/
def pyStr : Option MetaVal → String
  | Option.none => "None"
  | Option.some (MetaVal.str s) => s
  | Option.some (MetaVal.int n) =>
    if n < 0 then "-" ++ natDecimal (-n).toNat else natDecimal n.toNat

/-- A metadata dictionary: an association list with distinct keys kept in
insertion order (the observable behaviour of a Python `dict`). -/
abbrev Metadata := List (String × MetaVal)

/-- `m.get(k)` on a Python dict. -/
def metaGet (m : Metadata) (k : String) : Option MetaVal :=
  (m.find? (fun kv => kv.1 == k)).map Prod.snd

/-- `m[k] = v` on a Python dict: overwrite in place if the key exists,
append otherwise. -/
def metaSet (m : Metadata) (k : String) (v : MetaVal) : Metadata :=
  if m.any (fun kv => kv.1 == k) then
    m.map (fun kv => if kv.1 == k then (k, v) else kv)
  else m ++ [(k, v)]

/-- A document chunk: page content plus metadata (the shape of a langchain
`Document` as used by `populate_database.py`). -/
structure Chunk where
  page_content : String
  metadata : Metadata
deriving DecidableEq, Repr

/-! ## Chunk identifier assignment (`calculate_chunk_ids`) -/

/-- `f"{source}:{page}"` for a chunk: its page id. -/
def pageId (c : Chunk) : String :=
  pyStr (metaGet c.metadata "source") ++ ":" ++ pyStr (metaGet c.metadata "page")

/-- The loop of `calculate_chunk_ids`, with the rolling state
`(last_page_id, current_chunk_index)` made explicit.  For each chunk the
page id is computed; if it equals the previous chunk's page id the running
index is incremented, otherwise it is reset to 0; the chunk's metadata
gains the key `"id" = f"{current_page_id}:{current_chunk_index}"`. -/
def calcChunkIdsAux : Option String → Nat → List Chunk → List Chunk
  | _, _, [] => []
  | last, idx, c :: rest =>
    let currentPageId := pageId c
    let idx' := if Option.some currentPageId = last then idx + 1 else 0
    let cid := currentPageId ++ ":" ++ natDecimal idx'
    { c with metadata := metaSet c.metadata "id" (MetaVal.str cid) } ::
      calcChunkIdsAux (Option.some currentPageId) idx' rest

/-- Embedding of `calculate_chunk_ids` from `populate_database.py`:
`last_page_id` starts as `None` and `current_chunk_index` as 0. -/
def calculate_chunk_ids (chunks : List Chunk) : List Chunk :=
  calcChunkIdsAux Option.none 0 chunks

/-- The `"id"` metadata entry of a chunk, as read back by `add_to_chroma`
(`chunk.metadata["id"]`; always a string after `calculate_chunk_ids`). -/
def assignedId (c : Chunk) : String :=
  match metaGet c.metadata "id" with
  | Option.some (MetaVal.str s) => s
  | _ => ""

/-- Spec-level identifier fold: from the ordered sequence of page-id
strings alone, the running sequence counter is incremented when the page id
repeats the previous one and reset to 0 otherwise, and each identifier is
`pageId ++ ":" ++ sequence`.  (Stated from the spec's words, to be compared
with `calculate_chunk_ids`.) -/
def seqIds : Option String → Nat → List String → List String
  | _, _, [] => []
  | last, idx, p :: rest =>
    let idx' := if Option.some p = last then idx + 1 else 0
    (p ++ ":" ++ natDecimal idx') :: seqIds (Option.some p) idx' rest

/-- A chunk as produced by the loader/splitter: text plus `source` and
`page` metadata. -/
def mkChunk (source : String) (page : Int) (text : String) : Chunk :=
  { page_content := text
    metadata := [("source", MetaVal.str source), ("page", MetaVal.int page)] }

/-! ## Uniqueness of assigned identifiers

The sequence counter only looks at the immediately preceding chunk, so a
page id that recurs *non-contiguously* restarts its counter and produces a
duplicate identifier.  When equal page ids always appear contiguously (as
they do in loader output, which emits each page's chunks consecutively),
the identifiers are pairwise distinct. -/

/-- Boolean membership of a string in a list. -/
def memB (p : String) : List String → Bool
  | [] => false
  | q :: rest => (q == p) || memB p rest

/-- Drop the leading run of `p`. -/
def afterRun (p : String) : List String → List String
  | [] => []
  | q :: rest => if q == p then afterRun p rest else q :: rest

/-- Every repetition of a page id is contiguous: no page id recurs after a
different one has intervened. -/
def groupedB : List String → Bool
  | [] => true
  | p :: rest => !(memB p (afterRun p rest)) && groupedB rest

/-! ## The Chroma store and `add_to_chroma`

The store is observed through the identifier list it persists
(`db.get(include=[])["ids"]`); `db.add_documents(batch, ids=batch_ids)`
appends the batch's identifiers.  `add_to_chroma` takes two failure
oracles: `getFails` (the `db.get` call raises, and the `except` branch
starts from an empty id set) and `batchFails i` (the write call for batch
`i` raises and is skipped by the `continue`). -/

/-- `new_chunks[i:i+batch_size]` slicing, driven by a list-length fuel so
the function stays structurally recursive. -/
def toBatchesAux {α : Type} (k : Nat) : Nat → List α → List (List α)
  | _, [] => []
  | 0, l => [l]
  | fuel + 1, l => l.take k :: toBatchesAux k fuel (l.drop k)

/-- Split a list into consecutive slices of size `k` (the loop
`for i in range(0, len(new_chunks), batch_size)`). -/
def toBatches {α : Type} (k : Nat) (l : List α) : List (List α) :=
  toBatchesAux k l.length l

/-- Batch sizes according to the spec: `n / k` full slices of size `k`
followed by one slice of size `n % k` when `n` is not a multiple of `k`. -/
def specBatchSizes (k n : Nat) : List Nat :=
  List.replicate (n / k) k ++ (if n % k = 0 then [] else [n % k])

/-- The batch-writing loop: each batch is submitted independently at its
index; a failing batch leaves the store untouched (`continue`), a
successful one appends its identifiers. -/
def applyBatches (batchFails : Nat → Bool) : Nat → List String → List (List String) → List String
  | _, st, [] => st
  | i, st, b :: bs =>
    applyBatches batchFails (i + 1) (if batchFails i then st else st ++ b) bs

/-- Outcome of one `add_to_chroma` call: the persisted identifier list and
the identifier lists of the write calls it submitted. -/
structure AddOutcome where
  store : List String
  writes : List (List String)
deriving DecidableEq, Repr

/-- Embedding of `add_to_chroma` from `populate_database.py`. -/
def add_to_chroma (getFails : Bool) (batchFails : Nat → Bool)
    (store : List String) (chunks : List Chunk) : AddOutcome :=
  let chunks_with_ids := calculate_chunk_ids chunks
  let existing_ids : List String := if getFails then [] else store
  let new_chunks := chunks_with_ids.filter
    (fun c => !(existing_ids.contains (assignedId c)))
  if new_chunks.length = 0 then
    { store := store, writes := [] }
  else
    let batchIds := (toBatches 50 new_chunks).map (fun b => b.map assignedId)
    { store := applyBatches batchFails 0 store batchIds, writes := batchIds }

/-- The batches a run keeps: those whose index the failure oracle spares. -/
def keptBatches (batchFails : Nat → Bool) : Nat → List (List String) → List (List String)
  | _, [] => []
  | i, b :: bs =>
    if batchFails i then keptBatches batchFails (i + 1) bs
    else b :: keptBatches batchFails (i + 1) bs

/-- The chunks `add_to_chroma` classifies as new against a given id set. -/
def newChunks (existing : List String) (chunks : List Chunk) : List Chunk :=
  (calculate_chunk_ids chunks).filter
    (fun c => !(existing.contains (assignedId c)))

/-! ## The ingestion driver (`main`) -/

/-- `load_documents`: the PDF directory loader.  `Option.none` models a
missing data directory and `Option.some []` a directory without supported
files; in both cases the loader yields no documents. -/
def load_documents (docs : Option (List Chunk)) : List Chunk :=
  docs.getD []

/-- `split_documents` delegates to the external text splitter, which turns
each document into its chunks, in document order. -/
def split_documents (splitOne : Chunk → List Chunk) (documents : List Chunk) : List Chunk :=
  documents.flatMap splitOne

/-- `clear_database` removes the persisted store directory wholesale. -/
def clear_database (_store : List String) : List String := []

/-- Embedding of `main` from `populate_database.py`: optional reset, then
load → split → add to the store.  Returns the persisted id list at the end
of the run. -/
def mainRun (reset : Bool) (docs : Option (List Chunk))
    (splitOne : Chunk → List Chunk) (getFails : Bool) (batchFails : Nat → Bool)
    (store : List String) : List String :=
  let store1 := if reset then clear_database store else store
  let documents := load_documents docs
  let chunks := split_documents splitOne documents
  (add_to_chroma getFails batchFails store1 chunks).store

/-! ## The query pipeline's provenance contract

`chat_app.py` delegates to `query_rag` from `query_data.py`, a file that is
not part of the repository snapshot; the definitions below are therefore
modelled from the spec's Query Pipeline contract rather than read off
source code. -/

/-- Index of the first occurrence of `a` (length of the list when absent). -/
def firstIdx (a : String) : List String → Nat
  | [] => 0
  | x :: xs => if x = a then 0 else firstIdx a xs + 1

/-- Modelled from the spec: the de-duplication used for the `sources`
field of `query_rag` (`query_data.py` is missing from the snapshot).  The
spec requires the ordered, de-duplicated list of source identifiers with
first-occurrence order preserved: keep each identifier's first occurrence,
drop every later repetition. -/
def dedupFirst : List String → List String
  | [] => []
  | x :: xs => x :: dedupFirst (xs.filter (fun y => !(y == x)))
termination_by l => l.length
decreasing_by
  simp only [List.length_cons]
  exact Nat.lt_succ_of_le (List.length_filter_le _ _)

/-- The `{response, sources}` dictionary returned by the query pipeline. -/
structure QueryResponse where
  response : String
  sources : List String
deriving DecidableEq, Repr

/-- Modelled from the spec: the context block concatenates the retrieved
chunks' texts, in retrieval (descending-similarity) order, with a fixed
separator. -/
def contextBlock (retrieved : List Chunk) : String :=
  String.intercalate "\n\n---\n\n" (retrieved.map Chunk.page_content)

/-- Modelled from the spec: `query_rag` (from the absent `query_data.py`)
embeds the query, retrieves the top-k chunks, builds the context block,
delegates to the generation model, and returns the answer together with the
ordered de-duplicated identifiers of the chunks placed in the context. -/
def query_rag (generate : String → String) (retrieved : List Chunk) : QueryResponse :=
  { response := generate (contextBlock retrieved)
    sources := dedupFirst (retrieved.map assignedId) }

/-! ## Concrete fixtures used by the worked examples -/

/-- Six chunks of one document: five on page 0, a sixth on page 1. -/
def sixChunks : List Chunk :=
  [mkChunk "src" 0 "c0", mkChunk "src" 0 "c1", mkChunk "src" 0 "c2",
   mkChunk "src" 0 "c3", mkChunk "src" 0 "c4", mkChunk "src" 1 "c5"]

/-- Three chunks whose middle chunk interrupts page 0: page ids recur
non-contiguously. -/
def straddlingChunks : List Chunk :=
  [mkChunk "s" 0 "a", mkChunk "s" 1 "b", mkChunk "s" 0 "c"]

/-- 120 chunks of one page: four pages' worth of batches. -/
def chunks120 : List Chunk :=
  (List.range 120).map (fun i => mkChunk "src" 0 ("text" ++ natDecimal i))

/-- The fuel argument of `natDecAux` is irrelevant once it exceeds `n`. -/
theorem natDecAux_fuel : ∀ f g n : Nat, n < f → n < g →
    natDecAux f n = natDecAux g n := by
  intro f
  induction f with
  | zero => intro g n h; exact absurd h (Nat.not_lt_zero n)
  | succ f ih =>
    intro g n hf hg
    cases g with
    | zero => exact absurd hg (Nat.not_lt_zero n)
    | succ g =>
      by_cases h10 : n < 10
      · simp [natDecAux, h10]
      · have hn : 0 < n := Nat.lt_of_lt_of_le (by norm_num) (Nat.le_of_not_lt h10)
        have hdiv : n / 10 < n := Nat.div_lt_self hn (by norm_num)
        have h1 : n / 10 < f := Nat.lt_of_lt_of_le hdiv (Nat.lt_succ_iff.mp hf)
        have h2 : n / 10 < g := Nat.lt_of_lt_of_le hdiv (Nat.lt_succ_iff.mp hg)
        simp only [natDecAux, if_neg h10]
        rw [ih g (n / 10) h1 h2]

theorem natDecAux_eq (f n : Nat) (h : n < f) :
    natDecAux f n = (natDecimal n).data := by
  exact natDecAux_fuel f (n + 1) n h (Nat.lt_succ_self n)

/-- Unfolding equation for `natDecimal` in terms of the canonical fuel. -/
theorem natDecimal_eq (n : Nat) :
    (natDecimal n).data =
      if n < 10 then [digitChar n]
      else (natDecimal (n / 10)).data ++ [digitChar (n % 10)] := by
  by_cases h10 : n < 10
  · simp [natDecimal, natDecAux, h10]
  · have hn : 0 < n := Nat.lt_of_lt_of_le (by norm_num) (Nat.le_of_not_lt h10)
    have hdiv : n / 10 < n := Nat.div_lt_self hn (by norm_num)
    show natDecAux (n + 1) n = _
    simp only [natDecAux, if_neg h10]
    rw [natDecAux_eq n (n / 10) hdiv]

/-- Every character of a decimal rendering is a digit `'0'..'9'`. -/
theorem natDecimal_chars (n : Nat) :
    ∀ c ∈ (natDecimal n).data, c ∈ (['0','1','2','3','4','5','6','7','8','9'] : List Char) := by
  induction n using Nat.strong_induction_on with
  | _ n ih =>
    intro c hc
    rw [natDecimal_eq] at hc
    by_cases h10 : n < 10
    · rw [if_pos h10] at hc
      simp only [List.mem_singleton] at hc
      subst hc
      interval_cases n <;> simp [digitChar]
    · rw [if_neg h10] at hc
      rcases List.mem_append.mp hc with h | h
      · have hn : 0 < n := Nat.lt_of_lt_of_le (by norm_num) (Nat.le_of_not_lt h10)
        exact ih (n / 10) (Nat.div_lt_self hn (by norm_num)) c h
      · simp only [List.mem_singleton] at h
        subst h
        have hm : n % 10 < 10 := Nat.mod_lt n (by norm_num)
        interval_cases h : n % 10 <;> simp [digitChar]

/-- A colon never occurs in a decimal rendering. -/
theorem colon_not_mem_natDecimal (n : Nat) : ':' ∉ (natDecimal n).data := by
  intro h
  have := natDecimal_chars n ':' h
  simp at this

theorem decVal_append_singleton (l : List Char) (c : Char) :
    decVal (l ++ [c]) = 10 * decVal l + (c.toNat - 48) := by
  simp [decVal, List.foldl_append]

theorem digitChar_val (n : Nat) (h : n < 10) : (digitChar n).toNat - 48 = n := by
  interval_cases n <;> simp [digitChar]

/-- `decVal` inverts `natDecimal`: decimal rendering is injective. -/
theorem decVal_natDecimal (n : Nat) : decVal (natDecimal n).data = n := by
  induction n using Nat.strong_induction_on with
  | _ n ih =>
    rw [natDecimal_eq]
    by_cases h10 : n < 10
    · simp only [if_pos h10]
      show decVal ([] ++ [digitChar n]) = n
      rw [decVal_append_singleton, digitChar_val n h10]
      simp [decVal]
    · simp only [if_neg h10]
      have hn : 0 < n := Nat.lt_of_lt_of_le (by norm_num) (Nat.le_of_not_lt h10)
      rw [decVal_append_singleton, ih (n / 10) (Nat.div_lt_self hn (by norm_num)),
        digitChar_val (n % 10) (Nat.mod_lt n (by norm_num))]
      omega

theorem natDecimal_injective : Function.Injective natDecimal := by
  intro m n h
  have : decVal (natDecimal m).data = decVal (natDecimal n).data := by rw [h]
  rwa [decVal_natDecimal, decVal_natDecimal] at this

/-! ## Strings around a final separator -/

/-- Splitting a character list at a leading separator is unambiguous when the
prefixes are separator-free. -/
theorem sep_split_unique (sep : Char) :
    ∀ b₁ b₂ a₁ a₂ : List Char, sep ∉ b₁ → sep ∉ b₂ →
      b₁ ++ sep :: a₁ = b₂ ++ sep :: a₂ → b₁ = b₂ ∧ a₁ = a₂ := by
  intro b₁
  induction b₁ with
  | nil =>
    intro b₂ a₁ a₂ _ hb₂ h
    cases b₂ with
    | nil => simpa using h
    | cons c cs =>
      simp only [List.nil_append, List.cons_append, List.cons.injEq] at h
      exact absurd (h.1 ▸ List.mem_cons_self c cs) (h.1 ▸ hb₂)
  | cons c cs ih =>
    intro b₂ a₁ a₂ hb₁ hb₂ h
    cases b₂ with
    | nil =>
      simp only [List.cons_append, List.nil_append, List.cons.injEq] at h
      exact absurd (h.1 ▸ List.mem_cons_self c cs) (h.1 ▸ hb₁)
    | cons d ds =>
      simp only [List.cons_append, List.cons.injEq] at h
      obtain ⟨hcd, htail⟩ := h
      have := ih ds a₁ a₂ (fun hm => hb₁ (List.mem_cons_of_mem c hm))
        (fun hm => hb₂ (List.mem_cons_of_mem d hm)) htail
      exact ⟨by rw [hcd, this.1], this.2⟩

/-- Splitting a character list at a final separator is unambiguous when the
suffixes are separator-free. -/
theorem sep_last_unique (sep : Char) (a₁ a₂ b₁ b₂ : List Char)
    (h₁ : sep ∉ b₁) (h₂ : sep ∉ b₂)
    (h : a₁ ++ sep :: b₁ = a₂ ++ sep :: b₂) : a₁ = a₂ ∧ b₁ = b₂ := by
  have hrev : b₁.reverse ++ sep :: a₁.reverse = b₂.reverse ++ sep :: a₂.reverse := by
    have := congrArg List.reverse h
    simpa [List.reverse_append] using this
  have := sep_split_unique sep b₁.reverse b₂.reverse a₁.reverse a₂.reverse
    (by simpa using h₁) (by simpa using h₂) hrev
  constructor
  · have := this.2
    simpa using congrArg List.reverse this
  · have := this.1
    simpa using congrArg List.reverse this

/-- The id encoding `p ++ ":" ++ natDecimal k` is injective. -/
theorem id_encoding_injective (p₁ p₂ : String) (k₁ k₂ : Nat)
    (h : p₁ ++ ":" ++ natDecimal k₁ = p₂ ++ ":" ++ natDecimal k₂) :
    p₁ = p₂ ∧ k₁ = k₂ := by
  have hdata : p₁.data ++ ':' :: (natDecimal k₁).data
      = p₂.data ++ ':' :: (natDecimal k₂).data := by
    have := congrArg String.data h
    simpa [String.data_append] using this
  have := sep_last_unique ':' p₁.data p₂.data (natDecimal k₁).data (natDecimal k₂).data
    (colon_not_mem_natDecimal k₁) (colon_not_mem_natDecimal k₂) hdata
  refine ⟨?_, ?_⟩
  · cases p₁; cases p₂; exact congrArg String.mk this.1
  · exact natDecimal_injective (by ext1; exact this.2)

theorem metaGet_nil (k : String) : metaGet [] k = Option.none := rfl

theorem metaGet_cons_of_pos (a : String × MetaVal) (as : Metadata) (k : String)
    (h : (a.1 == k) = true) : metaGet (a :: as) k = Option.some a.2 := by
  simp [metaGet, List.find?_cons_of_pos, h]

theorem metaGet_cons_of_neg (a : String × MetaVal) (as : Metadata) (k : String)
    (h : (a.1 == k) = false) : metaGet (a :: as) k = metaGet as k := by
  simp only [metaGet]
  rw [List.find?_cons_of_neg]
  simp [h]

/-- If a key occurs nowhere in `as`, rewriting that key is the identity. -/
theorem map_setkey_of_not_any (as : Metadata) (k : String) (v : MetaVal)
    (h : (as.any (fun kv => kv.1 == k)) = false) :
    as.map (fun kv => if kv.1 == k then (k, v) else kv) = as := by
  induction as with
  | nil => rfl
  | cons a as ih =>
    simp only [List.any_cons, Bool.or_eq_false_iff] at h
    rw [List.map_cons, if_neg (by simp [h.1]), ih h.2]

theorem metaSet_of_any (m : Metadata) (k : String) (v : MetaVal)
    (h : (m.any (fun kv => kv.1 == k)) = true) :
    metaSet m k v = m.map (fun kv => if kv.1 == k then (k, v) else kv) := by
  simp [metaSet, h]

theorem metaSet_of_not_any (m : Metadata) (k : String) (v : MetaVal)
    (h : (m.any (fun kv => kv.1 == k)) = false) :
    metaSet m k v = m ++ [(k, v)] := by
  simp [metaSet, h]

theorem metaGet_metaSet_same (m : Metadata) (k : String) (v : MetaVal) :
    metaGet (metaSet m k v) k = Option.some v := by
  induction m with
  | nil =>
    rw [metaSet_of_not_any _ _ _ (by simp)]
    exact metaGet_cons_of_pos (k, v) [] k (beq_self_eq_true k)
  | cons a as ih =>
    cases ha : (a.1 == k) with
    | true =>
      rw [metaSet_of_any _ _ _ (by simp [List.any_cons, ha])]
      simp only [List.map_cons, if_pos ha]
      exact metaGet_cons_of_pos (k, v) _ k (beq_self_eq_true k)
    | false =>
      cases has : (as.any (fun kv => kv.1 == k)) with
      | true =>
        rw [metaSet_of_any _ _ _ (by simp [List.any_cons, has])]
        simp only [List.map_cons, if_neg (by simp [ha] : ¬ (a.1 == k) = true)]
        rw [metaGet_cons_of_neg a _ k ha]
        rw [metaSet_of_any _ _ _ has] at ih
        exact ih
      | false =>
        rw [metaSet_of_not_any _ _ _ (by simp [List.any_cons, ha, has])]
        rw [List.cons_append, metaGet_cons_of_neg a _ k ha]
        rw [metaSet_of_not_any _ _ _ has] at ih
        exact ih

theorem metaGet_metaSet_other (m : Metadata) (k k' : String) (v : MetaVal)
    (hne : k' ≠ k) : metaGet (metaSet m k v) k' = metaGet m k' := by
  have hkk : (k == k') = false := by
    simp only [beq_eq_false_iff_ne, ne_eq]
    exact fun hc => hne hc.symm
  induction m with
  | nil =>
    rw [metaSet_of_not_any _ _ _ (by simp)]
    rw [show ([] : Metadata) ++ [(k, v)] = [(k, v)] from rfl]
    rw [metaGet_cons_of_neg (k, v) [] k' hkk]
  | cons a as ih =>
    cases ha : (a.1 == k) with
    | true =>
      have hak' : (a.1 == k') = false := by
        simp only [beq_eq_false_iff_ne, ne_eq]
        intro hc
        exact hne ((eq_of_beq ha ▸ hc : k = k').symm)
      rw [metaSet_of_any _ _ _ (by simp [List.any_cons, ha])]
      simp only [List.map_cons, if_pos ha]
      rw [metaGet_cons_of_neg (k, v) _ k' hkk, metaGet_cons_of_neg a as k' hak']
      cases has : (as.any (fun kv => kv.1 == k)) with
      | true =>
        rw [metaSet_of_any _ _ _ has] at ih
        exact ih
      | false =>
        rw [map_setkey_of_not_any as k v has]
    | false =>
      cases has : (as.any (fun kv => kv.1 == k)) with
      | true =>
        rw [metaSet_of_any _ _ _ (by simp [List.any_cons, has])]
        simp only [List.map_cons, if_neg (by simp [ha] : ¬ (a.1 == k) = true)]
        cases hak : (a.1 == k') with
        | true =>
          rw [metaGet_cons_of_pos a _ k' hak, metaGet_cons_of_pos a as k' hak]
        | false =>
          rw [metaGet_cons_of_neg a _ k' hak, metaGet_cons_of_neg a as k' hak]
          rw [metaSet_of_any _ _ _ has] at ih
          exact ih
      | false =>
        rw [metaSet_of_not_any _ _ _ (by simp [List.any_cons, ha, has])]
        rw [List.cons_append]
        cases hak : (a.1 == k') with
        | true =>
          rw [metaGet_cons_of_pos a _ k' hak, metaGet_cons_of_pos a as k' hak]
        | false =>
          rw [metaGet_cons_of_neg a _ k' hak, metaGet_cons_of_neg a as k' hak]
          rw [metaSet_of_not_any _ _ _ has] at ih
          exact ih

theorem calcChunkIdsAux_map_assignedId (last : Option String) (idx : Nat)
    (chunks : List Chunk) :
    (calcChunkIdsAux last idx chunks).map assignedId
      = seqIds last idx (chunks.map pageId) := by
  induction chunks generalizing last idx with
  | nil => rfl
  | cons c rest ih =>
    simp only [calcChunkIdsAux, seqIds, List.map_cons, List.cons.injEq]
    refine ⟨?_, ih _ _⟩
    rw [assignedId, metaGet_metaSet_same]

/-- The identifiers assigned by `calculate_chunk_ids`, in order. -/
theorem calculate_chunk_ids_map_assignedId (chunks : List Chunk) :
    (calculate_chunk_ids chunks).map assignedId
      = seqIds Option.none 0 (chunks.map pageId) :=
  calcChunkIdsAux_map_assignedId Option.none 0 chunks

theorem memB_eq_false_iff (p : String) : ∀ l : List String,
    memB p l = false ↔ p ∉ l := by
  intro l
  induction l with
  | nil => simp [memB]
  | cons q rest ih =>
    simp only [memB, Bool.or_eq_false_iff, List.mem_cons, ih]
    constructor
    · rintro ⟨h1, h2⟩ (h | h)
      · subst h
        simp at h1
      · exact h2 h
    · intro h
      refine ⟨?_, fun hm => h (Or.inr hm)⟩
      simp only [beq_eq_false_iff_ne, ne_eq]
      exact fun hq => h (Or.inl hq.symm)

/-- Every member of `seqIds last k ps` is built from a member of `ps`. -/
theorem mem_seqIds_shape : ∀ (ps : List String) (last : Option String) (k : Nat)
    (s : String), s ∈ seqIds last k ps →
    ∃ p ∈ ps, ∃ j, s = p ++ ":" ++ natDecimal j := by
  intro ps
  induction ps with
  | nil => intro last k s hs; cases hs
  | cons p rest ih =>
    intro last k s hs
    rw [seqIds] at hs
    rcases List.mem_cons.mp hs with hs | hs
    · exact ⟨p, List.mem_cons_self p rest, _, hs⟩
    · obtain ⟨q, hq, j, hj⟩ := ih _ _ s hs
      exact ⟨q, List.mem_cons_of_mem p hq, j, hj⟩

/-- An id built from a page id absent from `ps` never occurs in
`seqIds last k ps`. -/
theorem not_mem_seqIds_of_not_mem (ps : List String) (last : Option String)
    (k : Nat) (p : String) (j : Nat) (hp : p ∉ ps) :
    (p ++ ":" ++ natDecimal j) ∉ seqIds last k ps := by
  intro hmem
  obtain ⟨q, hq, j', hj'⟩ := mem_seqIds_shape ps last k _ hmem
  obtain ⟨hpq, -⟩ := id_encoding_injective p q j j' hj'
  exact hp (hpq ▸ hq)

/-- While the current run of page id `p` continues, sequence numbers only
grow, and once the run ends `p` never recurs (under contiguity); hence an
id of `p` with a sequence number not above the current counter cannot
appear later. -/
theorem not_mem_seqIds_run : ∀ (rest : List String) (p : String) (k j : Nat),
    memB p (afterRun p rest) = false → j ≤ k →
    (p ++ ":" ++ natDecimal j) ∉ seqIds (Option.some p) k rest := by
  intro rest
  induction rest with
  | nil => intro p k j _ _ hmem; cases hmem
  | cons q rest' ih =>
    intro p k j hafter hjk hmem
    rw [seqIds] at hmem
    by_cases hqp : q = p
    · subst hqp
      rw [if_pos rfl] at hmem
      rw [afterRun, if_pos (beq_self_eq_true q)] at hafter
      rcases List.mem_cons.mp hmem with hmem | hmem
      · obtain ⟨-, hj⟩ := id_encoding_injective _ _ _ _ hmem
        omega
      · exact ih q (k + 1) j hafter (by omega) hmem
    · rw [if_neg (fun h => hqp (Option.some.inj h))] at hmem
      rw [afterRun, if_neg (by simpa using hqp)] at hafter
      rw [memB, Bool.or_eq_false_iff] at hafter
      have hpq : p ≠ q := by
        intro h
        subst h
        simp at hafter
      have hpnotin : p ∉ rest' := (memB_eq_false_iff p rest').mp hafter.2
      rcases List.mem_cons.mp hmem with hmem | hmem
      · obtain ⟨hpq', -⟩ := id_encoding_injective _ _ _ _ hmem
        exact hpq hpq'
      · exact not_mem_seqIds_of_not_mem rest' _ 0 p j hpnotin hmem

/-- Under contiguous grouping of page ids, the identifiers produced by the
sequence-counter fold are pairwise distinct, from any starting state. -/
theorem seqIds_nodup : ∀ (ps : List String) (last : Option String) (k : Nat),
    groupedB ps = true → (seqIds last k ps).Nodup := by
  intro ps
  induction ps with
  | nil => intro last k _; exact List.nodup_nil
  | cons p rest ih =>
    intro last k hg
    rw [groupedB, Bool.and_eq_true] at hg
    rw [seqIds]
    refine List.nodup_cons.mpr ⟨?_, ih _ _ hg.2⟩
    exact not_mem_seqIds_run rest p _ _ (by simpa using hg.1) (Nat.le_refl _)

theorem toBatchesAux_fuel {α : Type} (k : Nat) (hk : 1 ≤ k) :
    ∀ (f g : Nat) (l : List α), l.length ≤ f → l.length ≤ g →
      toBatchesAux k f l = toBatchesAux k g l := by
  intro f
  induction f with
  | zero =>
    intro g l hf _
    have : l = [] := List.eq_nil_of_length_eq_zero (Nat.le_zero.mp hf)
    subst this
    cases g <;> rfl
  | succ f ih =>
    intro g l hf hg
    cases l with
    | nil => cases g <;> rfl
    | cons a as =>
      cases g with
      | zero => exact absurd hg (by simp)
      | succ g =>
        show (a :: as).take k :: toBatchesAux k f ((a :: as).drop k)
            = (a :: as).take k :: toBatchesAux k g ((a :: as).drop k)
        have hlen : ((a :: as).drop k).length = (a :: as).length - k := by
          rw [List.length_drop]
        have hf' : ((a :: as).drop k).length ≤ f := by
          rw [hlen]
          simp only [List.length_cons] at hf ⊢
          omega
        have hg' : ((a :: as).drop k).length ≤ g := by
          rw [hlen]
          simp only [List.length_cons] at hg ⊢
          omega
        rw [ih g _ hf' hg']

theorem toBatches_nil {α : Type} (k : Nat) : toBatches k ([] : List α) = [] := rfl

theorem toBatches_cons {α : Type} (k : Nat) (hk : 1 ≤ k) (a : α) (as : List α) :
    toBatches k (a :: as)
      = (a :: as).take k :: toBatches k ((a :: as).drop k) := by
  show toBatchesAux k ((a :: as).length) (a :: as) = _
  rw [show (a :: as).length = as.length + 1 from rfl]
  show (a :: as).take k :: toBatchesAux k as.length ((a :: as).drop k) = _
  rw [toBatchesAux_fuel k hk as.length ((a :: as).drop k).length ((a :: as).drop k)
    (by rw [List.length_drop]; simp only [List.length_cons]; omega) (Nat.le_refl _)]
  rfl

/-- The batches partition the list: concatenated in order they give back
the original list. -/
theorem toBatches_join {α : Type} (k : Nat) (hk : 1 ≤ k) :
    ∀ (n : Nat) (l : List α), l.length ≤ n → (toBatches k l).flatten = l := by
  intro n
  induction n with
  | zero =>
    intro l hl
    have : l = [] := List.eq_nil_of_length_eq_zero (Nat.le_zero.mp hl)
    subst this
    rfl
  | succ n ih =>
    intro l hl
    cases l with
    | nil => rfl
    | cons a as =>
      rw [toBatches_cons k hk a as, List.flatten_cons]
      rw [ih ((a :: as).drop k)
        (by rw [List.length_drop]; simp only [List.length_cons] at hl ⊢; omega)]
      exact List.take_append_drop k (a :: as)

/-- The sizes of the write batches are `k, k, …, k, n % k`. -/
theorem toBatches_sizes {α : Type} (k : Nat) (hk : 1 ≤ k) :
    ∀ (n : Nat) (l : List α), l.length ≤ n →
      (toBatches k l).map List.length = specBatchSizes k l.length := by
  intro n
  induction n with
  | zero =>
    intro l hl
    have : l = [] := List.eq_nil_of_length_eq_zero (Nat.le_zero.mp hl)
    subst this
    rw [toBatches_nil]
    simp [specBatchSizes]
  | succ n ih =>
    intro l hl
    cases l with
    | nil =>
      rw [toBatches_nil]
      simp [specBatchSizes]
    | cons a as =>
      rw [toBatches_cons k hk a as, List.map_cons]
      rw [ih ((a :: as).drop k)
        (by rw [List.length_drop]; simp only [List.length_cons] at hl ⊢; omega)]
      rw [List.length_take, List.length_drop]
      rcases Nat.lt_or_ge (a :: as).length k with hlt | hge
      · -- the whole list fits in a single final batch
        have h1 : min k (a :: as).length = (a :: as).length := by omega
        have h2 : (a :: as).length - k = 0 := by omega
        have h3 : (a :: as).length / k = 0 := Nat.div_eq_of_lt hlt
        have h4 : (a :: as).length % k = (a :: as).length := Nat.mod_eq_of_lt hlt
        have h5 : ¬ (a :: as).length = 0 := by simp
        rw [h1, h2]
        simp only [specBatchSizes, h3, h4, if_neg h5, List.replicate_zero,
          List.nil_append, Nat.zero_div, Nat.zero_mod, if_pos rfl]
        simp
      · -- a full batch of size k followed by the rest
        have h1 : min k (a :: as).length = k := by omega
        rw [h1]
        simp only [specBatchSizes]
        rw [Nat.div_eq_sub_div (by omega) hge, Nat.mod_eq_sub_mod hge,
          List.replicate_succ, List.cons_append]

theorem applyBatches_eq_join_kept (batchFails : Nat → Bool) :
    ∀ (bs : List (List String)) (i : Nat) (st : List String),
      applyBatches batchFails i st bs = st ++ (keptBatches batchFails i bs).flatten := by
  intro bs
  induction bs with
  | nil => intro i st; simp [applyBatches, keptBatches]
  | cons b bs ih =>
    intro i st
    rw [applyBatches, keptBatches]
    cases h : batchFails i with
    | true =>
      rw [if_pos rfl, if_pos rfl, ih]
    | false =>
      rw [if_neg (by simp), if_neg (by simp), ih, List.flatten_cons,
        List.append_assoc]

theorem keptBatches_nofail : ∀ (bs : List (List String)) (i : Nat),
    keptBatches (fun _ => false) i bs = bs := by
  intro bs
  induction bs with
  | nil => intro i; rfl
  | cons b bs ih =>
    intro i
    rw [keptBatches, if_neg (by simp), ih]

theorem newChunks_nil (chunks : List Chunk) :
    newChunks [] chunks = calculate_chunk_ids chunks := by
  rw [newChunks]
  exact List.filter_eq_self.mpr (fun a _ => by simp [List.contains])

/-- Unfolding of `add_to_chroma` in terms of `newChunks`. -/
theorem add_to_chroma_def (getFails : Bool) (batchFails : Nat → Bool)
    (store : List String) (chunks : List Chunk) :
    add_to_chroma getFails batchFails store chunks
      = (if (newChunks (if getFails then [] else store) chunks).length = 0 then
          { store := store, writes := [] }
        else
          { store := applyBatches batchFails 0 store
              ((toBatches 50 (newChunks (if getFails then [] else store) chunks)).map
                (fun b => b.map assignedId))
            writes := (toBatches 50 (newChunks (if getFails then [] else store) chunks)).map
              (fun b => b.map assignedId) } : AddOutcome) := rfl

/-- The submitted write calls do not depend on the batch-failure oracle. -/
theorem add_to_chroma_writes_indep (getFails : Bool) (f f' : Nat → Bool)
    (store : List String) (chunks : List Chunk) :
    (add_to_chroma getFails f store chunks).writes
      = (add_to_chroma getFails f' store chunks).writes := by
  rw [add_to_chroma_def, add_to_chroma_def]
  by_cases h : (newChunks (if getFails then [] else store) chunks).length = 0
  · rw [if_pos h, if_pos h]
  · rw [if_neg h, if_neg h]

/-- After a call, the store holds the old ids followed by the ids of the
non-failing batches, in order. -/
theorem add_to_chroma_store_eq (getFails : Bool) (f : Nat → Bool)
    (store : List String) (chunks : List Chunk) :
    (add_to_chroma getFails f store chunks).store
      = store ++ (keptBatches f 0 (add_to_chroma getFails f store chunks).writes).flatten := by
  rw [add_to_chroma_def]
  by_cases h : (newChunks (if getFails then [] else store) chunks).length = 0
  · rw [if_pos h]
    show store = store ++ (keptBatches f 0 []).flatten
    simp [keptBatches]
  · rw [if_neg h]
    exact applyBatches_eq_join_kept f _ 0 store

/-- All submitted ids, concatenated across batches, are exactly the ids of
the chunks classified as new, in order. -/
theorem add_to_chroma_writes_flatten (getFails : Bool) (f : Nat → Bool)
    (store : List String) (chunks : List Chunk) :
    (add_to_chroma getFails f store chunks).writes.flatten
      = (newChunks (if getFails then [] else store) chunks).map assignedId := by
  rw [add_to_chroma_def]
  by_cases h : (newChunks (if getFails then [] else store) chunks).length = 0
  · rw [if_pos h]
    have : newChunks (if getFails then [] else store) chunks = [] :=
      List.eq_nil_of_length_eq_zero h
    rw [this]
    rfl
  · rw [if_neg h]
    show ((toBatches 50 _).map (List.map assignedId)).flatten = _
    rw [← List.map_flatten assignedId,
      toBatches_join 50 (by norm_num) (newChunks _ chunks).length _ (Nat.le_refl _)]

/-- With no write failures the store gains exactly the new chunks' ids. -/
theorem add_to_chroma_nofail_store (store : List String) (chunks : List Chunk) :
    (add_to_chroma false (fun _ => false) store chunks).store
      = store ++ (newChunks store chunks).map assignedId := by
  rw [add_to_chroma_store_eq, keptBatches_nofail, add_to_chroma_writes_flatten]
  rfl

/-- After a failure-free call every chunk id is present in the store. -/
theorem assignedId_mem_store_after (store : List String) (chunks : List Chunk)
    (c : Chunk) (hc : c ∈ calculate_chunk_ids chunks) :
    assignedId c ∈ (add_to_chroma false (fun _ => false) store chunks).store := by
  rw [add_to_chroma_nofail_store]
  rw [List.mem_append]
  by_cases h : assignedId c ∈ store
  · exact Or.inl h
  · refine Or.inr (List.mem_map.mpr ⟨c, ?_, rfl⟩)
    rw [newChunks, List.mem_filter]
    refine ⟨hc, ?_⟩
    simp [List.contains, h]

/-- Re-ingesting the same chunk sequence into the store left by a
failure-free ingestion is a no-op: nothing is classified as new and no
write is submitted. -/
theorem add_to_chroma_idempotent (store : List String) (chunks : List Chunk) :
    add_to_chroma false (fun _ => false)
        (add_to_chroma false (fun _ => false) store chunks).store chunks
      = { store := (add_to_chroma false (fun _ => false) store chunks).store
          writes := [] } := by
  have hnil : newChunks (if (false : Bool) = true then []
      else (add_to_chroma false (fun _ => false) store chunks).store) chunks = [] := by
    show newChunks (add_to_chroma false (fun _ => false) store chunks).store chunks = []
    rw [newChunks, List.filter_eq_nil_iff]
    intro c hc
    have hmem := assignedId_mem_store_after store chunks c hc
    simp [List.contains, hmem]
  rw [add_to_chroma_def]
  rw [if_pos (by rw [hnil]; rfl)]

/-- With `db.get` failing, the call behaves exactly as over an empty store:
every chunk is classified as new; the old records nevertheless remain. -/
theorem add_to_chroma_getFails (f : Nat → Bool) (store : List String)
    (chunks : List Chunk) :
    add_to_chroma true f store chunks
      = { store := store ++ (add_to_chroma false f [] chunks).store
          writes := (add_to_chroma false f [] chunks).writes } := by
  have e1 : (if (true : Bool) = true then ([] : List String) else store) = [] := rfl
  have e2 : (if (false : Bool) = true then ([] : List String) else ([] : List String)) = [] := rfl
  rw [add_to_chroma_def, add_to_chroma_def, e1, e2]
  by_cases h : (newChunks ([] : List String) chunks).length = 0
  · rw [if_pos h, if_pos h]
    simp
  · rw [if_neg h, if_neg h]
    simp [applyBatches_eq_join_kept]

/-! ### Properties of the spec-modelled de-duplication -/

theorem dedupFirst_nil : dedupFirst [] = [] := by
  simp [dedupFirst]

theorem dedupFirst_cons (x : String) (xs : List String) :
    dedupFirst (x :: xs) = x :: dedupFirst (xs.filter (fun y => !(y == x))) := by
  simp [dedupFirst]

theorem dedupFirst_sublist : ∀ (n : Nat) (l : List String), l.length ≤ n →
    List.Sublist (dedupFirst l) l := by
  intro n
  induction n with
  | zero =>
    intro l hl
    rw [List.eq_nil_of_length_eq_zero (Nat.le_zero.mp hl), dedupFirst_nil]
  | succ n ih =>
    intro l hl
    cases l with
    | nil => rw [dedupFirst_nil]
    | cons x xs =>
      rw [dedupFirst_cons]
      refine List.Sublist.cons₂ x ?_
      refine List.Sublist.trans (ih _ ?_) (List.filter_sublist xs)
      have := List.length_filter_le (fun y => !(y == x)) xs
      simp only [List.length_cons] at hl
      omega

theorem mem_dedupFirst : ∀ (n : Nat) (l : List String) (a : String), l.length ≤ n →
    (a ∈ dedupFirst l ↔ a ∈ l) := by
  intro n
  induction n with
  | zero =>
    intro l a hl
    rw [List.eq_nil_of_length_eq_zero (Nat.le_zero.mp hl), dedupFirst_nil]
  | succ n ih =>
    intro l a hl
    cases l with
    | nil => rw [dedupFirst_nil]
    | cons x xs =>
      rw [dedupFirst_cons]
      constructor
      · intro h
        exact (dedupFirst_sublist (n + 1) (x :: xs) hl).subset (dedupFirst_cons x xs ▸ h)
      · intro h
        rcases List.mem_cons.mp h with h | h
        · exact h ▸ List.mem_cons_self x _
        · by_cases hax : a = x
          · exact hax ▸ List.mem_cons_self x _
          · refine List.mem_cons_of_mem x ?_
            have hfil : a ∈ xs.filter (fun y => !(y == x)) :=
              List.mem_filter.mpr ⟨h, by simp [hax]⟩
            have hlen : (xs.filter (fun y => !(y == x))).length ≤ n := by
              have := List.length_filter_le (fun y => !(y == x)) xs
              simp only [List.length_cons] at hl
              omega
            exact (ih _ a hlen).mpr hfil

theorem dedupFirst_nodup : ∀ (n : Nat) (l : List String), l.length ≤ n →
    (dedupFirst l).Nodup := by
  intro n
  induction n with
  | zero =>
    intro l hl
    rw [List.eq_nil_of_length_eq_zero (Nat.le_zero.mp hl), dedupFirst_nil]
    exact List.nodup_nil
  | succ n ih =>
    intro l hl
    cases l with
    | nil =>
      rw [dedupFirst_nil]
      exact List.nodup_nil
    | cons x xs =>
      rw [dedupFirst_cons]
      have hlen : (xs.filter (fun y => !(y == x))).length ≤ n := by
        have := List.length_filter_le (fun y => !(y == x)) xs
        simp only [List.length_cons] at hl
        omega
      refine List.nodup_cons.mpr ⟨?_, ih _ hlen⟩
      intro hmem
      have hx : x ∈ xs.filter (fun y => !(y == x)) :=
        (mem_dedupFirst n _ x hlen).mp hmem
      have := (List.mem_filter.mp hx).2
      simp at this

theorem firstIdx_cons_self (a : String) (l : List String) :
    firstIdx a (a :: l) = 0 := by
  simp [firstIdx]

theorem firstIdx_cons_ne (a x : String) (l : List String) (h : x ≠ a) :
    firstIdx a (x :: l) = firstIdx a l + 1 := by
  simp [firstIdx, h]

/-- Filtering (with both elements surviving) preserves the relative order
of first occurrences. -/
theorem firstIdx_filter_lt_iff (P : String → Bool) :
    ∀ (l : List String) (a b : String), a ≠ b →
      a ∈ l.filter P → b ∈ l.filter P →
      (firstIdx a (l.filter P) < firstIdx b (l.filter P) ↔
        firstIdx a l < firstIdx b l) := by
  intro l
  induction l with
  | nil =>
    intro a b _ ha _
    simp at ha
  | cons y ys ih =>
    intro a b hab ha hb
    cases hP : P y with
    | true =>
      rw [List.filter_cons_of_pos hP] at ha hb ⊢
      by_cases hya : y = a
      · subst hya
        have hyb : y ≠ b := fun h => hab (h ▸ rfl)
        rw [firstIdx_cons_self, firstIdx_cons_self,
          firstIdx_cons_ne b y _ hyb, firstIdx_cons_ne b y _ hyb]
        simp
      · by_cases hyb : y = b
        · subst hyb
          rw [firstIdx_cons_self, firstIdx_cons_self,
            firstIdx_cons_ne a y _ hya, firstIdx_cons_ne a y _ hya]
          simp
        · rw [firstIdx_cons_ne a y _ hya, firstIdx_cons_ne b y _ hyb,
            firstIdx_cons_ne a y _ hya, firstIdx_cons_ne b y _ hyb,
            Nat.add_lt_add_iff_right, Nat.add_lt_add_iff_right]
          have ha' : a ∈ ys.filter P := by
            rcases List.mem_cons.mp ha with h | h
            · exact absurd h.symm hya
            · exact h
          have hb' : b ∈ ys.filter P := by
            rcases List.mem_cons.mp hb with h | h
            · exact absurd h.symm hyb
            · exact h
          exact ih a b hab ha' hb'
    | false =>
      rw [List.filter_cons_of_neg (by simp [hP])] at ha hb ⊢
      have hya : y ≠ a := by
        intro h
        subst h
        have := (List.mem_filter.mp ha).2
        rw [hP] at this
        cases this
      have hyb : y ≠ b := by
        intro h
        subst h
        have := (List.mem_filter.mp hb).2
        rw [hP] at this
        cases this
      rw [firstIdx_cons_ne a y _ hya, firstIdx_cons_ne b y _ hyb,
        Nat.add_lt_add_iff_right]
      exact ih a b hab ha hb

/-- De-duplication preserves the relative order of first occurrences. -/
theorem dedupFirst_firstIdx_iff : ∀ (n : Nat) (l : List String) (a b : String),
    l.length ≤ n → a ≠ b → a ∈ l → b ∈ l →
    (firstIdx a (dedupFirst l) < firstIdx b (dedupFirst l) ↔
      firstIdx a l < firstIdx b l) := by
  intro n
  induction n with
  | zero =>
    intro l a b hl _ ha _
    rw [List.eq_nil_of_length_eq_zero (Nat.le_zero.mp hl)] at ha
    simp at ha
  | succ n ih =>
    intro l a b hl hab ha hb
    cases l with
    | nil => simp at ha
    | cons x xs =>
      rw [dedupFirst_cons]
      by_cases hxa : x = a
      · subst hxa
        have hxb : x ≠ b := fun h => hab (h ▸ rfl)
        rw [firstIdx_cons_self, firstIdx_cons_self,
          firstIdx_cons_ne b x _ hxb, firstIdx_cons_ne b x _ hxb]
        simp
      · by_cases hxb : x = b
        · subst hxb
          rw [firstIdx_cons_self, firstIdx_cons_self,
            firstIdx_cons_ne a x _ hxa, firstIdx_cons_ne a x _ hxa]
          simp
        · have ha' : a ∈ xs := by
            rcases List.mem_cons.mp ha with h | h
            · exact absurd h.symm hxa
            · exact h
          have hb' : b ∈ xs := by
            rcases List.mem_cons.mp hb with h | h
            · exact absurd h.symm hxb
            · exact h
          have hafil : a ∈ xs.filter (fun y => !(y == x)) :=
            List.mem_filter.mpr ⟨ha', by simp; exact fun h => hxa h.symm⟩
          have hbfil : b ∈ xs.filter (fun y => !(y == x)) :=
            List.mem_filter.mpr ⟨hb', by simp; exact fun h => hxb h.symm⟩
          have hlen : (xs.filter (fun y => !(y == x))).length ≤ n := by
            have := List.length_filter_le (fun y => !(y == x)) xs
            simp only [List.length_cons] at hl
            omega
          rw [firstIdx_cons_ne a x _ hxa, firstIdx_cons_ne b x _ hxb,
            firstIdx_cons_ne a x _ hxa, firstIdx_cons_ne b x _ hxb,
            Nat.add_lt_add_iff_right, Nat.add_lt_add_iff_right]
          exact (ih _ a b hlen hab hafil hbfil).trans
            (firstIdx_filter_lt_iff (fun y => !(y == x)) xs a b hab hafil hbfil)

/-! ## Frame property of identifier assignment -/

theorem calcChunkIdsAux_frame : ∀ (chunks : List Chunk) (last : Option String) (idx : Nat),
    List.Forall₂ (fun c' c => c'.page_content = c.page_content ∧
        ∀ k, k ≠ "id" → metaGet c'.metadata k = metaGet c.metadata k)
      (calcChunkIdsAux last idx chunks) chunks := by
  intro chunks
  induction chunks with
  | nil => intro last idx; exact List.Forall₂.nil
  | cons c rest ih =>
    intro last idx
    exact List.Forall₂.cons
      ⟨rfl, fun k hk => metaGet_metaSet_other c.metadata "id" k _ hk⟩ (ih _ _)

/-! ## The claims -/

/-- C1: identifier assignment is a fold over the ordered chunk sequence:
each chunk's page id is `f"{source}:{page}"`; the running sequence counter
is incremented when the page id equals the previous chunk's and reset to 0
otherwise, and the chunk's id is `f"{page_id}:{sequence}"`.  In particular
a single document/page with 5 chunks receives `src:0:0` … `src:0:4`, and a
6th chunk from page 1 receives `src:1:0`. -/
theorem chunk_id_assignment_is_seq_fold :
    (∀ chunks : List Chunk,
        (calculate_chunk_ids chunks).map assignedId
          = seqIds Option.none 0 (chunks.map pageId))
    ∧ (calculate_chunk_ids sixChunks).map assignedId
        = ["src:0:0", "src:0:1", "src:0:2", "src:0:3", "src:0:4", "src:1:0"] := by
  refine ⟨calculate_chunk_ids_map_assignedId, ?_⟩
  decide

/-- C2: `add_to_chroma` submits exactly the chunks whose identifier is not
already in the store; when nothing is new it returns without submitting any
write; and re-ingesting the same chunk sequence leaves the store (hence its
record count) unchanged. -/
theorem upsert_skips_existing_and_reingestion_noop :
    (∀ (f : Nat → Bool) (store : List String) (chunks : List Chunk),
        (add_to_chroma false f store chunks).writes.flatten
          = (newChunks store chunks).map assignedId)
    ∧ (∀ (f : Nat → Bool) (store : List String) (chunks : List Chunk),
        newChunks store chunks = [] →
          add_to_chroma false f store chunks = { store := store, writes := [] })
    ∧ (∀ (store : List String) (chunks : List Chunk),
        (add_to_chroma false (fun _ => false)
            (add_to_chroma false (fun _ => false) store chunks).store chunks).store
          = (add_to_chroma false (fun _ => false) store chunks).store) := by
  refine ⟨fun f store chunks => add_to_chroma_writes_flatten false f store chunks,
    ?_, ?_⟩
  · intro f store chunks h
    have e : (if (false : Bool) = true then ([] : List String) else store) = store := rfl
    rw [add_to_chroma_def, e, if_pos (by rw [h]; rfl)]
  · intro store chunks
    rw [add_to_chroma_idempotent store chunks]

/-- C2 witness: a store already holding `src:0:0` receives the single chunk
that would get that id, and the call is a no-op. -/
theorem upsert_skips_existing_and_reingestion_noop_witness :
    add_to_chroma false (fun _ => false) ["src:0:0"] [mkChunk "src" 0 "a"]
      = { store := ["src:0:0"], writes := [] } :=
  upsert_skips_existing_and_reingestion_noop.2.1 (fun _ => false)
    ["src:0:0"] [mkChunk "src" 0 "a"] (by decide)

/-- C3 counterexample: when a page id recurs non-contiguously the counter
restarts and a duplicate identifier is produced — pages `0, 1, 0` of source
`s` yield `s:0:0, s:1:0, s:0:0`. -/
theorem chunk_ids_duplicate_on_straddling_pages :
    ¬ ((calculate_chunk_ids straddlingChunks).map assignedId).Nodup := by
  decide

/-- C3 (amended): when equal page ids occur only contiguously in the chunk
sequence (as in loader output), the assigned identifiers are pairwise
distinct; and the identifiers are stable across runs: they depend only on
the ordered `source`/`page` metadata. -/
theorem chunk_ids_unique_when_grouped_and_stable (chunks : List Chunk)
    (h : groupedB (chunks.map pageId) = true) :
    ((calculate_chunk_ids chunks).map assignedId).Nodup
    ∧ (∀ chunks' : List Chunk, chunks'.map pageId = chunks.map pageId →
        (calculate_chunk_ids chunks').map assignedId
          = (calculate_chunk_ids chunks).map assignedId) := by
  constructor
  · rw [calculate_chunk_ids_map_assignedId]
    exact seqIds_nodup _ _ _ h
  · intro chunks' he
    rw [calculate_chunk_ids_map_assignedId, calculate_chunk_ids_map_assignedId, he]

/-- C3 witness: the six-chunk fixture is contiguously grouped and its ids
are pairwise distinct. -/
theorem chunk_ids_unique_when_grouped_and_stable_witness :
    groupedB (sixChunks.map pageId) = true
    ∧ ((calculate_chunk_ids sixChunks).map assignedId).Nodup :=
  ⟨by decide, (chunk_ids_unique_when_grouped_and_stable sixChunks (by decide)).1⟩

/-- C4: identifier assignment is deterministic — the assigned identifiers
depend only on the ordered `source`/`page` metadata, so two runs over the
identical ordered input produce identical identifiers. -/
theorem calculate_chunk_ids_deterministic (cs1 cs2 : List Chunk)
    (h : cs1.map pageId = cs2.map pageId) :
    (calculate_chunk_ids cs1).map assignedId
      = (calculate_chunk_ids cs2).map assignedId := by
  rw [calculate_chunk_ids_map_assignedId, calculate_chunk_ids_map_assignedId, h]

/-- C4 witness: two runs over the same six-chunk input agree. -/
theorem calculate_chunk_ids_deterministic_witness :
    (calculate_chunk_ids sixChunks).map assignedId
      = (calculate_chunk_ids sixChunks).map assignedId :=
  calculate_chunk_ids_deterministic sixChunks sixChunks rfl

/-- C5: a failing upsert batch does not abort the others: the submitted
write calls are independent of the failure oracle, the store receives
exactly the non-failing batches, and for 120 new chunks with batch size 50
and the 2nd call failing, calls of sizes 50, 50, 20 are submitted and 70
records are stored. -/
theorem batch_failures_do_not_abort :
    (∀ (getFails : Bool) (f f' : Nat → Bool) (store : List String) (chunks : List Chunk),
        (add_to_chroma getFails f store chunks).writes
          = (add_to_chroma getFails f' store chunks).writes)
    ∧ (∀ (getFails : Bool) (f : Nat → Bool) (store : List String) (chunks : List Chunk),
        (add_to_chroma getFails f store chunks).store
          = store ++ (keptBatches f 0 (add_to_chroma getFails f store chunks).writes).flatten)
    ∧ ((add_to_chroma false (fun i => i == 1) [] chunks120).writes.map List.length
          = [50, 50, 20]
        ∧ (add_to_chroma false (fun i => i == 1) [] chunks120).store.length = 70) := by
  refine ⟨add_to_chroma_writes_indep, add_to_chroma_store_eq, ?_⟩
  set_option maxRecDepth 40000 in decide

/-- C6: the write batches partition the new chunks, in order, into
consecutive slices of size 50 with a final slice of size `n % 50` when `n`
is not a multiple of 50; 120 new chunks produce exactly 3 calls of sizes
50, 50, 20. -/
theorem batches_partition_in_order :
    (∀ l : List Chunk, (toBatches 50 l).flatten = l)
    ∧ (∀ l : List Chunk, (toBatches 50 l).map List.length = specBatchSizes 50 l.length)
    ∧ (add_to_chroma false (fun _ => false) [] chunks120).writes.map List.length
        = [50, 50, 20] := by
  refine ⟨fun l => toBatches_join 50 (by norm_num) l.length l (Nat.le_refl _),
    fun l => toBatches_sizes 50 (by norm_num) l.length l (Nat.le_refl _), ?_⟩
  set_option maxRecDepth 40000 in decide

/-- C7 counterexample: with the reset flag set, `main` clears the store
before loading documents, so a run whose data directory is missing does
change the store state. -/
theorem reset_mutates_store_before_load_failure :
    mainRun true Option.none (fun _ => []) false (fun _ => false) ["src:0:0"]
      ≠ ["src:0:0"] := by
  decide

/-- C7 (amended): when the document directory is missing or holds no
supported files, ingestion performs no store mutation other than the
explicitly requested reset: without the reset flag the store is unchanged,
and with it the only change is the reset deletion. -/
theorem no_mutation_on_missing_source_except_reset (docs : Option (List Chunk))
    (splitOne : Chunk → List Chunk) (getFails : Bool) (batchFails : Nat → Bool)
    (store : List String)
    (h : docs = Option.none ∨ docs = Option.some []) :
    mainRun false docs splitOne getFails batchFails store = store
    ∧ mainRun true docs splitOne getFails batchFails store = [] := by
  rcases h with h | h
  · subst h
    exact ⟨rfl, rfl⟩
  · subst h
    exact ⟨rfl, rfl⟩

/-- C7 witness: a run without the reset flag over a missing data directory
leaves a one-record store unchanged. -/
theorem no_mutation_on_missing_source_except_reset_witness :
    mainRun false Option.none (fun _ => []) false (fun _ => false) ["src:0:0"]
      = ["src:0:0"] :=
  (no_mutation_on_missing_source_except_reset Option.none (fun _ => [])
    false (fun _ => false) ["src:0:0"] (Or.inl rfl)).1

/-- C8: the `sources` list returned by the query pipeline holds exactly the
identifiers of the chunks placed in the context block, de-duplicated with
first-occurrence order preserved: it has no duplicates, it is a
subsequence of the context's id sequence, it has the same members, and the
relative order of any two sources matches the order of their first
occurrences among the retrieved chunks. -/
theorem query_sources_exact_dedup_first_order (generate : String → String)
    (retrieved : List Chunk) :
    ((query_rag generate retrieved).sources).Nodup
    ∧ List.Sublist (query_rag generate retrieved).sources (retrieved.map assignedId)
    ∧ (∀ s, s ∈ (query_rag generate retrieved).sources ↔ s ∈ retrieved.map assignedId)
    ∧ (∀ a b, a ≠ b → a ∈ retrieved.map assignedId → b ∈ retrieved.map assignedId →
        (firstIdx a (query_rag generate retrieved).sources
            < firstIdx b (query_rag generate retrieved).sources
          ↔ firstIdx a (retrieved.map assignedId)
              < firstIdx b (retrieved.map assignedId))) := by
  refine ⟨dedupFirst_nodup (retrieved.map assignedId).length _ (Nat.le_refl _),
    dedupFirst_sublist (retrieved.map assignedId).length _ (Nat.le_refl _),
    fun s => mem_dedupFirst (retrieved.map assignedId).length _ s (Nat.le_refl _),
    fun a b hab ha hb =>
      dedupFirst_firstIdx_iff (retrieved.map assignedId).length _ a b
        (Nat.le_refl _) hab ha hb⟩

/-- C9: `calculate_chunk_ids` returns the same chunks in the same order,
modified only in the `"id"` metadata entry: each output chunk has the same
text and, at every key other than `"id"`, the same metadata as the
corresponding input chunk. -/
theorem calculate_chunk_ids_frame (chunks : List Chunk) :
    List.Forall₂ (fun c' c => c'.page_content = c.page_content ∧
        ∀ k, k ≠ "id" → metaGet c'.metadata k = metaGet c.metadata k)
      (calculate_chunk_ids chunks) chunks :=
  calcChunkIdsAux_frame chunks Option.none 0

/-- C10: if reading the existing identifiers fails, `add_to_chroma`
proceeds as if the store were empty: the run behaves exactly like a run
against an empty store (its new records appended to the untouched old
ones), and every input chunk is classified as new and submitted. -/
theorem get_failure_treated_as_empty_store (f : Nat → Bool)
    (store : List String) (chunks : List Chunk) :
    (add_to_chroma true f store chunks
        = { store := store ++ (add_to_chroma false f [] chunks).store
            writes := (add_to_chroma false f [] chunks).writes })
    ∧ (add_to_chroma true f store chunks).writes.flatten
        = (calculate_chunk_ids chunks).map assignedId := by
  refine ⟨add_to_chroma_getFails f store chunks, ?_⟩
  rw [add_to_chroma_writes_flatten]
  have e : (if (true : Bool) = true then ([] : List String) else store) = [] := rfl
  rw [e, newChunks_nil]

end RagPipeline

